import Mathlib

/-!
Verification of the `global-toolkit` repository: a shallow embedding of the
RPC header registry (`net/rpc`) and of the request-construction part of the
HTTP request facade (`net/resty`), together with proofs of the specified
properties.

The header registry stores string headers directly on a chainable context
handle (Go `context.WithValue`) and additionally keeps a process-wide
side-table (`headerKeysMap`) from the identity of a context handle to the
list of keys ever set along the chain ending at that handle.  Context
identity is modelled by a natural-number id drawn from a fresh-id counter
kept in the registry state; the attachment chain of a handle is modelled as
an association list whose head is the most recent attachment, exactly
mirroring lookup order of chained `context.WithValue` nodes.
-/

namespace GlobalToolkit

/-- Assignment `m[k] = v` on a Go `map[string]string` modelled as an
association list: replace the binding for `k` if present, otherwise add it. -/
def mapSet : List (String × String) → String → String → List (String × String)
  | [], k, v => [(k, v)]
  | (k2, v2) :: rest, k, v =>
    if k2 = k then (k, v) :: rest else (k2, v2) :: mapSet rest k v

/-- Lookup `m[k]` on a Go `map[string]string` modelled as an association list. -/
def headersLookup : List (String × String) → String → Option String
  | [], _ => none
  | (k2, v2) :: rest, k => if k2 = k then some v2 else headersLookup rest k

namespace Rpc

/-- A value stored in a Go context under a `headerKey`-typed key.  The
registry itself only ever stores strings, but `GetRPCHeader` performs a
runtime type assertion, so the model keeps a non-string alternative for
values placed in the context by code outside the registry. -/
inductive GoVal where
  | str (s : String)
  | nonstring (tag : Nat)
  deriving DecidableEq

/-- A context handle: an identity (Go: the pointer identity of the
`context.Context` value, used as the key of `headerKeysMap`) together with
the chain of `headerKey`-typed attachments, most recent first (Go: the
nested `context.WithValue` wrappers, which `Value` searches innermost
first). -/
structure Ctx where
  id : Nat
  attach : List (String × GoVal)
  deriving DecidableEq

/-- Lookup along a context's attachment chain, innermost attachment first:
the model of `ctx.Value(headerKey(key))`. -/
def attachLookup : List (String × GoVal) → String → Option GoVal
  | [], _ => none
  | (k2, v2) :: rest, k => if k2 = k then some v2 else attachLookup rest k

/-- `ctx.Value(headerKey(key))`. -/
def ctxValue (c : Ctx) (key : String) : Option GoVal :=
  attachLookup c.attach key

/-- Lookup in the global side-table `headerKeysMap`; a missing handle gives
the empty key list (Go: indexing a map with a missing key yields the nil
slice). -/
def tableFind : List (Nat × List String) → Nat → List String
  | [], _ => []
  | (j, ks) :: rest, i => if j = i then ks else tableFind rest i

/-- Assignment `headerKeysMap[ctx] = keys` (Go map assignment: replace the
entry for the identity if present, otherwise add it). -/
def tableInsert : List (Nat × List String) → Nat → List String → List (Nat × List String)
  | [], i, ks => [(i, ks)]
  | (j, ks2) :: rest, i, ks =>
    if j = i then (i, ks) :: rest else (j, ks2) :: tableInsert rest i ks

/-- `delete(headerKeysMap, ctx)` (Go map deletion: remove the entry for the
identity, if any). -/
def tableErase : List (Nat × List String) → Nat → List (Nat × List String)
  | [], _ => []
  | (j, ks) :: rest, i => if j = i then rest else (j, ks) :: tableErase rest i

/-- The mutable global state of the registry: the side-table
`headerKeysMap`, plus a counter supplying the identity of the next context
handle created by `context.WithValue` (Go: allocation guarantees a fresh
pointer identity for every new context). -/
structure RpcState where
  nextId : Nat
  headerKeysMap : List (Nat × List String)
  deriving DecidableEq

/-- `GetRPCHeader(ctx, key)`: returns `("", false)` on a nil context, a
missing attachment, or a non-string attachment, and `(value, true)` on a
string attachment.  It reads only the context chain, never the side-table. -/
def GetRPCHeader : Option Ctx → String → String × Bool
  | none, _ => ("", false)
  | some c, key =>
    match ctxValue c key with
    | none => ("", false)
    | some (GoVal.str s) => (s, true)
    | some (GoVal.nonstring _) => ("", false)

/-- The `found` loop of `SetRPCHeader`: extend the key list with `key`
unless it is already present. -/
def keyStep (keys : List String) (key : String) : List String :=
  if key ∈ keys then keys else keys ++ [key]

/-- `SetRPCHeader(ctx, key, value)`: wraps `ctx` in a fresh
`context.WithValue` node carrying `(key, value)`, stores under the new
handle's identity the old handle's key list extended with `key` if new, and
deletes the old handle's side-table entry.  Returns the updated global
state together with the new handle. -/
def SetRPCHeader (st : RpcState) (ctx : Ctx) (key value : String) : RpcState × Ctx :=
  let newCtx : Ctx := { id := st.nextId, attach := (key, GoVal.str value) :: ctx.attach }
  let keys := tableFind st.headerKeysMap ctx.id
  let table := tableErase (tableInsert st.headerKeysMap st.nextId (keyStep keys key)) ctx.id
  ({ nextId := st.nextId + 1, headerKeysMap := table }, newCtx)

/-- The loop body of `GetRPCHeaders`: add `key` to the result map when
`GetRPCHeader` finds it on the chain. -/
def getAllStep (c : Ctx) (m : List (String × String)) (key : String) : List (String × String) :=
  match GetRPCHeader (some c) key with
  | (v, true) => mapSet m key v
  | (_, false) => m

/-- `GetRPCHeaders(ctx)`: the empty map on a nil context; otherwise reads
the side-table key list for the handle's identity and collects, for each
listed key, the value found on the chain. -/
def GetRPCHeaders (st : RpcState) (ctx : Option Ctx) : List (String × String) :=
  match ctx with
  | none => []
  | some c => (tableFind st.headerKeysMap c.id).foldl (getAllStep c) []

/-- One iteration of the `SetRPCHeaders` loop, threading the global state
and the current handle. -/
def chainStep (p : RpcState × Ctx) (kv : String × String) : RpcState × Ctx :=
  SetRPCHeader p.1 p.2 kv.1 kv.2

/-- `SetRPCHeaders(ctx, headers)`: folds `SetRPCHeader` over the entries of
`headers` (a Go map, iterated in an unspecified order modelled by the order
of the list). -/
def SetRPCHeaders (st : RpcState) (ctx : Ctx) (headers : List (String × String)) :
    RpcState × Ctx :=
  headers.foldl chainStep (st, ctx)

/-- The registry state of a fresh process: an empty side-table, with
identity `0` already taken by the root handle below. -/
def initState : RpcState :=
  { nextId := 1, headerKeysMap := [] }

/-- A fresh, empty context handle (Go: `context.Background()`), with no
attachments and no side-table entry. -/
def rootCtx : Ctx :=
  { id := 0, attach := [] }

/-- Run a linear chain of `set` operations from the fresh root handle: each
returned handle is the input of the next `SetRPCHeader`.  Definitionally
the same as `SetRPCHeaders initState rootCtx ws`. -/
def chainRun (ws : List (String × String)) : RpcState × Ctx :=
  SetRPCHeaders initState rootCtx ws

/-- The attachment chain produced by writing `ws` in order onto an empty
chain: most recent write first. -/
def toAttach (ws : List (String × String)) : List (String × GoVal) :=
  (ws.map (fun kv => (kv.1, GoVal.str kv.2))).reverse

/-- The side-table key list produced by writing `ws` in order starting from
an empty list: keys in order of first write, without duplicates. -/
def keysOf (ws : List (String × String)) : List String :=
  ws.foldl (fun ks kv => keyStep ks kv.1) []

/-- The value of the last write in `ws` at key `k`, if any: later entries
of `ws` take precedence. -/
def lastWrite : List (String × String) → String → Option String
  | [], _ => none
  | (k2, v2) :: rest, k =>
    match lastWrite rest k with
    | some v => some v
    | none => if k2 = k then some v2 else none

/-- Looking up a concatenation of attachment chains searches the inner
(left) part first. -/
lemma attachLookup_append (a b : List (String × GoVal)) (k : String) :
    attachLookup (a ++ b) k =
      match attachLookup a k with
      | some v => some v
      | none => attachLookup b k := by
  induction a with
  | nil => rfl
  | cons hd t ih =>
    obtain ⟨k2, v2⟩ := hd
    by_cases h : k2 = k <;> simp [attachLookup, h, ih]

@[simp]
lemma toAttach_nil : toAttach [] = [] := rfl

lemma toAttach_cons (x : String × String) (t : List (String × String)) :
    toAttach (x :: t) = toAttach t ++ [(x.1, GoVal.str x.2)] := by
  simp [toAttach]

/-- Chain lookup on the attachments produced by the write list `ws` returns
the last write at the queried key. -/
lemma attachLookup_toAttach (ws : List (String × String)) (k : String) :
    attachLookup (toAttach ws) k = (lastWrite ws k).map GoVal.str := by
  induction ws with
  | nil => rfl
  | cons x t ih =>
    rw [toAttach_cons, attachLookup_append, ih]
    cases h : lastWrite t k with
    | some v => simp [lastWrite, h]
    | none =>
      by_cases hk : x.1 = k <;> simp [lastWrite, h, hk, attachLookup]

/-- On a handle whose attachments are exactly those of the write list
`seen`, `GetRPCHeader` returns the last write at the queried key. -/
lemma getRPCHeader_eq_lastWrite (c : Ctx) (seen : List (String × String)) (k : String)
    (h : c.attach = toAttach seen) :
    GetRPCHeader (some c) k =
      match lastWrite seen k with
      | some v => (v, true)
      | none => ("", false) := by
  show (match ctxValue c k with
        | none => ("", false)
        | some (GoVal.str s) => (s, true)
        | some (GoVal.nonstring _) => ("", false)) = _
  rw [ctxValue, h, attachLookup_toAttach]
  cases lastWrite seen k <;> rfl

/-- The `GetRPCHeaders` loop body specialised to a known lookup function. -/
def chainGetStep (g : String → Option String) (m : List (String × String)) (key : String) :
    List (String × String) :=
  match g key with
  | some v => mapSet m key v
  | none => m

lemma getAllStep_eq_chainGetStep (c : Ctx) (seen : List (String × String))
    (h : c.attach = toAttach seen) :
    getAllStep c = chainGetStep (lastWrite seen) := by
  funext m key
  rw [getAllStep, getRPCHeader_eq_lastWrite c seen key h, chainGetStep]
  cases lastWrite seen key <;> rfl

lemma headersLookup_mapSet (m : List (String × String)) (k v q : String) :
    headersLookup (mapSet m k v) q = if q = k then some v else headersLookup m q := by
  induction m with
  | nil =>
    by_cases h : q = k
    · simp [mapSet, headersLookup, h]
    · have h2 : ¬ k = q := fun hh => h hh.symm
      simp [mapSet, headersLookup, h, h2]
  | cons hd rest ih =>
    obtain ⟨a, b⟩ := hd
    by_cases hak : a = k
    · subst hak
      by_cases hq : q = a
      · simp [mapSet, headersLookup, hq]
      · have hq2 : ¬ a = q := fun hh => hq hh.symm
        simp [mapSet, headersLookup, hq, hq2]
    · by_cases hq : a = q
      · subst hq
        simp [mapSet, headersLookup, hak]
      · simp [mapSet, headersLookup, hak, hq, ih]

lemma mapSet_length_of_lookup_none (m : List (String × String)) (k v : String)
    (h : headersLookup m k = none) :
    (mapSet m k v).length = m.length + 1 := by
  induction m with
  | nil => rfl
  | cons hd rest ih =>
    obtain ⟨a, b⟩ := hd
    by_cases hak : a = k
    · simp [headersLookup, hak] at h
    · simp [headersLookup, hak] at h
      simp [mapSet, hak, ih h]

/-- Lookup in the map built by folding `chainGetStep g` over a key list:
keys in the list whose lookup succeeds are present with their looked-up
value; everything else falls through to the accumulator. -/
lemma foldl_chainGetStep_lookup (g : String → Option String) :
    ∀ (ks : List String) (m : List (String × String)) (q : String),
      headersLookup (ks.foldl (chainGetStep g) m) q =
        if q ∈ ks ∧ (g q).isSome = true then g q else headersLookup m q
  | [], m, q => by simp
  | key :: rest, m, q => by
    rw [List.foldl_cons, foldl_chainGetStep_lookup g rest (chainGetStep g m key) q]
    by_cases hmem : q ∈ rest ∧ (g q).isSome = true
    · simp [hmem, hmem.1, hmem.2]
    · rw [if_neg hmem]
      by_cases hq : q = key
      · subst hq
        cases hg : g q with
        | some v =>
          have : q ∈ q :: rest ∧ (g q).isSome = true := by simp [hg]
          simp [this, chainGetStep, hg, headersLookup_mapSet]
        | none =>
          have : ¬ (q ∈ q :: rest ∧ (g q).isSome = true) := by simp [hg]
          simp [this, chainGetStep, hg]
      · have h1 : (q ∈ key :: rest ∧ (g q).isSome = true) ↔
            (q ∈ rest ∧ (g q).isSome = true) := by
          simp [List.mem_cons, hq]
        rw [if_congr h1 rfl rfl, if_neg hmem]
        cases hg : g key with
        | some v => simp [chainGetStep, hg, headersLookup_mapSet, hq]
        | none => simp [chainGetStep, hg]

/-- Size of the map built by folding `chainGetStep g` over a duplicate-free
key list on which every lookup succeeds and which is disjoint from the
accumulator: one entry per key. -/
lemma foldl_chainGetStep_length (g : String → Option String) :
    ∀ (ks : List String) (m : List (String × String)), ks.Nodup →
      (∀ key ∈ ks, (g key).isSome = true) →
      (∀ key ∈ ks, headersLookup m key = none) →
      (ks.foldl (chainGetStep g) m).length = m.length + ks.length
  | [], m, _, _, _ => rfl
  | key :: rest, m, hnd, hsome, hnone => by
    rw [List.foldl_cons]
    obtain ⟨v, hv⟩ := Option.isSome_iff_exists.mp (hsome key (List.mem_cons_self key rest))
    have hstep : chainGetStep g m key = mapSet m key v := by
      simp [chainGetStep, hv]
    have hlen : (mapSet m key v).length = m.length + 1 :=
      mapSet_length_of_lookup_none m key v (hnone key (List.mem_cons_self key rest))
    have hrest : ∀ k2 ∈ rest, headersLookup (mapSet m key v) k2 = none := by
      intro k2 hk2
      have hne : ¬ k2 = key := fun hh => (List.nodup_cons.mp hnd).1 (hh ▸ hk2)
      rw [headersLookup_mapSet, if_neg hne]
      exact hnone k2 (List.mem_cons_of_mem key hk2)
    rw [hstep, foldl_chainGetStep_length g rest (mapSet m key v)
      (List.nodup_cons.mp hnd).2
      (fun k2 hk2 => hsome k2 (List.mem_cons_of_mem key hk2)) hrest, hlen]
    simp [Nat.add_assoc, Nat.add_comm 1]

lemma mem_keyStep (ks : List String) (k q : String) :
    q ∈ keyStep ks k ↔ q ∈ ks ∨ q = k := by
  by_cases h : k ∈ ks
  · rw [keyStep, if_pos h]
    exact ⟨Or.inl, fun hq => hq.elim id (fun hh => hh ▸ h)⟩
  · rw [keyStep, if_neg h]
    simp

lemma keyStep_nodup (ks : List String) (k : String) (h : ks.Nodup) :
    (keyStep ks k).Nodup := by
  by_cases hk : k ∈ ks
  · rw [keyStep, if_pos hk]; exact h
  · rw [keyStep, if_neg hk]
    simp [List.nodup_append, h, hk]

lemma mem_foldl_keyStep :
    ∀ (ws : List (String × String)) (acc : List String) (q : String),
      q ∈ ws.foldl (fun ks kv => keyStep ks kv.1) acc ↔ q ∈ acc ∨ q ∈ ws.map Prod.fst
  | [], acc, q => by simp
  | x :: t, acc, q => by
    rw [List.foldl_cons, mem_foldl_keyStep t (keyStep acc x.1) q, mem_keyStep]
    simp [List.mem_cons, or_assoc]

/-- The bookkept key list of a write list contains exactly the written keys. -/
lemma mem_keysOf (ws : List (String × String)) (q : String) :
    q ∈ keysOf ws ↔ q ∈ ws.map Prod.fst := by
  rw [keysOf, mem_foldl_keyStep]
  simp

/-- A key has a last write exactly when it occurs among the written keys. -/
lemma lastWrite_isSome (ws : List (String × String)) (q : String) :
    (lastWrite ws q).isSome = true ↔ q ∈ ws.map Prod.fst := by
  induction ws with
  | nil => simp [lastWrite]
  | cons x t ih =>
    obtain ⟨a, b⟩ := x
    cases h : lastWrite t q with
    | some v =>
      have : q ∈ t.map Prod.fst := ih.mp (by simp [h])
      simp [lastWrite, h, this]
    | none =>
      rw [h] at ih
      simp at ih
      by_cases ha : a = q
      · subst ha
        simp [lastWrite, h]
      · have hq : ¬ q = a := fun hh => ha hh.symm
        simp [lastWrite, h, ha, hq, ih]

lemma tableFind_tableInsert_self (t : List (Nat × List String)) (i : Nat) (ks : List String) :
    tableFind (tableInsert t i ks) i = ks := by
  induction t with
  | nil => simp [tableInsert, tableFind]
  | cons hd rest ih =>
    obtain ⟨j, ks2⟩ := hd
    by_cases hj : j = i <;> simp [tableInsert, tableFind, hj, ih]

lemma tableFind_tableErase_ne (t : List (Nat × List String)) (i j : Nat) (h : ¬ j = i) :
    tableFind (tableErase t i) j = tableFind t j := by
  induction t with
  | nil => rfl
  | cons hd rest ih =>
    obtain ⟨j2, ks2⟩ := hd
    by_cases hj : j2 = i
    · rw [tableErase, if_pos hj]
      have h2 : ¬ j2 = j := fun hh => h (hh ▸ hj)
      show tableFind rest j = if j2 = j then ks2 else tableFind rest j
      rw [if_neg h2]
    · rw [tableErase, if_neg hj]
      simp only [tableFind]
      rw [ih]

lemma mem_tableInsert (t : List (Nat × List String)) (i : Nat) (ks : List String)
    (p : Nat × List String) (h : p ∈ tableInsert t i ks) : p = (i, ks) ∨ p ∈ t := by
  induction t with
  | nil => simpa [tableInsert] using h
  | cons hd rest ih =>
    obtain ⟨j, ks2⟩ := hd
    by_cases hj : j = i
    · rw [tableInsert, if_pos hj] at h
      rcases List.mem_cons.mp h with h1 | h1
      · exact Or.inl h1
      · exact Or.inr (List.mem_cons_of_mem _ h1)
    · rw [tableInsert, if_neg hj] at h
      rcases List.mem_cons.mp h with h1 | h1
      · exact Or.inr (h1 ▸ List.mem_cons_self _ _)
      · rcases ih h1 with h2 | h2
        · exact Or.inl h2
        · exact Or.inr (List.mem_cons_of_mem _ h2)

lemma mem_of_mem_tableErase (t : List (Nat × List String)) (i : Nat)
    (p : Nat × List String) (h : p ∈ tableErase t i) : p ∈ t := by
  induction t with
  | nil => exact absurd h (List.not_mem_nil p)
  | cons hd rest ih =>
    obtain ⟨j, ks2⟩ := hd
    by_cases hj : j = i
    · rw [tableErase, if_pos hj] at h
      exact List.mem_cons_of_mem _ h
    · rw [tableErase, if_neg hj] at h
      rcases List.mem_cons.mp h with h1 | h1
      · exact h1 ▸ List.mem_cons_self _ _
      · exact List.mem_cons_of_mem _ (ih h1)

/-- When no entry of the table carries the identity `i`, Go map assignment
appends the new entry at the end. -/
lemma tableInsert_eq_append (t : List (Nat × List String)) (i : Nat) (ks : List String)
    (h : ∀ p ∈ t, p.1 ≠ i) : tableInsert t i ks = t ++ [(i, ks)] := by
  induction t with
  | nil => rfl
  | cons hd rest ih =>
    obtain ⟨j, ks2⟩ := hd
    have hj : ¬ j = i := h (j, ks2) (List.mem_cons_self _ _)
    rw [tableInsert, if_neg hj, ih (fun p hp => h p (List.mem_cons_of_mem _ hp))]
    rfl

/-- When table identities are pairwise distinct, Go map deletion leaves no
entry with the deleted identity. -/
lemma tableErase_not_mem (t : List (Nat × List String)) (i : Nat)
    (hnd : (t.map Prod.fst).Nodup) :
    ∀ p ∈ tableErase t i, p.1 ≠ i := by
  induction t with
  | nil => intro p hp; simp [tableErase] at hp
  | cons hd rest ih =>
    obtain ⟨j, ks2⟩ := hd
    rw [List.map_cons, List.nodup_cons] at hnd
    intro p hp
    by_cases hj : j = i
    · rw [tableErase, if_pos hj] at hp
      intro hpi
      have hmem : p.1 ∈ rest.map Prod.fst := List.mem_map.mpr ⟨p, hp, rfl⟩
      rw [hpi, ← hj] at hmem
      exact hnd.1 hmem
    · rw [tableErase, if_neg hj] at hp
      rcases List.mem_cons.mp hp with h1 | h1
      · rw [h1]; exact hj
      · exact ih hnd.2 p h1

/-- The class of configurations produced by a linear derivation chain that
no other registry activity has disturbed: the handle's attachments are
exactly the chain's writes, its side-table entry is exactly the chain's
bookkept key list, and its identity is older than the fresh-id counter,
as is every identity in the table. -/
structure GoodCfg (st : RpcState) (c : Ctx) (seen : List (String × String)) : Prop where
  attach_eq : c.attach = toAttach seen
  table_eq : tableFind st.headerKeysMap c.id = keysOf seen
  id_lt : c.id < st.nextId
  bound : ∀ p ∈ st.headerKeysMap, p.1 < st.nextId

lemma goodCfg_init : GoodCfg initState rootCtx [] := by
  refine ⟨rfl, rfl, Nat.zero_lt_one, ?_⟩
  intro p hp
  simp [initState] at hp

lemma keysOf_append_singleton (ws : List (String × String)) (kv : String × String) :
    keysOf (ws ++ [kv]) = keyStep (keysOf ws) kv.1 := by
  simp [keysOf, List.foldl_append]

lemma goodCfg_step (st : RpcState) (c : Ctx) (seen : List (String × String))
    (h : GoodCfg st c seen) (k v : String) :
    GoodCfg (SetRPCHeader st c k v).1 (SetRPCHeader st c k v).2 (seen ++ [(k, v)]) := by
  obtain ⟨hA, hK, hI, hB⟩ := h
  have hne : ¬ c.id = st.nextId := Nat.ne_of_lt hI
  refine ⟨?_, ?_, ?_, ?_⟩
  · show (k, GoVal.str v) :: c.attach = toAttach (seen ++ [(k, v)])
    rw [hA, toAttach, toAttach, List.map_append, List.reverse_append]
    rfl
  · show tableFind (tableErase (tableInsert st.headerKeysMap st.nextId
        (keyStep (tableFind st.headerKeysMap c.id) k)) c.id) st.nextId = _
    rw [tableFind_tableErase_ne _ _ _ (fun hh => hne hh.symm),
      tableFind_tableInsert_self, hK, keysOf_append_singleton]
  · exact Nat.lt_succ_self st.nextId
  · intro p hp
    rcases mem_tableInsert _ _ _ p (mem_of_mem_tableErase _ _ p hp) with h1 | h1
    · rw [h1]; exact Nat.lt_succ_self st.nextId
    · exact Nat.lt_succ_of_lt (hB p h1)

lemma goodCfg_foldl :
    ∀ (ws : List (String × String)) (st : RpcState) (c : Ctx) (seen : List (String × String)),
      GoodCfg st c seen →
      GoodCfg (ws.foldl chainStep (st, c)).1 (ws.foldl chainStep (st, c)).2 (seen ++ ws)
  | [], st, c, seen, h => by
    rw [List.foldl_nil, List.append_nil]
    exact h
  | kv :: rest, st, c, seen, h => by
    rw [List.foldl_cons]
    have h2 := goodCfg_step st c seen h kv.1 kv.2
    have h3 := goodCfg_foldl rest (SetRPCHeader st c kv.1 kv.2).1
      (SetRPCHeader st c kv.1 kv.2).2 (seen ++ [(kv.1, kv.2)]) h2
    rw [List.append_assoc] at h3
    exact h3

/-- Every linear derivation chain from the fresh root handle yields a good
configuration. -/
lemma goodCfg_chainRun (ws : List (String × String)) :
    GoodCfg (chainRun ws).1 (chainRun ws).2 ws := by
  have h := goodCfg_foldl ws initState rootCtx [] goodCfg_init
  simpa [chainRun, SetRPCHeaders] using h

/-- In a good configuration, `GetRPCHeaders` maps each key to the last
write of the chain at that key, and contains nothing else. -/
lemma getAll_lookup_of_cfg (st : RpcState) (c : Ctx) (seen : List (String × String))
    (hA : c.attach = toAttach seen) (hK : tableFind st.headerKeysMap c.id = keysOf seen)
    (q : String) :
    headersLookup (GetRPCHeaders st (some c)) q = lastWrite seen q := by
  show headersLookup ((tableFind st.headerKeysMap c.id).foldl (getAllStep c) []) q = _
  rw [hK, getAllStep_eq_chainGetStep c seen hA, foldl_chainGetStep_lookup]
  by_cases hq : q ∈ keysOf seen
  · have hs : (lastWrite seen q).isSome = true :=
      (lastWrite_isSome seen q).mpr ((mem_keysOf seen q).mp hq)
    rw [if_pos ⟨hq, hs⟩]
  · have hs : ¬ (lastWrite seen q).isSome = true := by
      rw [lastWrite_isSome]
      exact fun hh => hq ((mem_keysOf seen q).mpr hh)
    rw [if_neg (fun hh => hs hh.2)]
    show none = lastWrite seen q
    cases hlw : lastWrite seen q with
    | none => rfl
    | some v => rw [hlw] at hs; simp at hs

lemma keysOf_foldl_nodup :
    ∀ (ws : List (String × String)) (acc : List String), acc.Nodup →
      (ws.foldl (fun ks kv => keyStep ks kv.1) acc).Nodup
  | [], _, h => h
  | x :: t, acc, h => by
    rw [List.foldl_cons]
    exact keysOf_foldl_nodup t (keyStep acc x.1) (keyStep_nodup acc x.1 h)

/-- Bookkept key lists are duplicate-free along a chain from the root. -/
lemma keysOf_nodup (ws : List (String × String)) : (keysOf ws).Nodup :=
  keysOf_foldl_nodup ws [] List.nodup_nil

lemma foldl_keyStep_of_disjoint :
    ∀ (ws : List (String × String)) (acc : List String),
      (∀ q ∈ ws.map Prod.fst, q ∉ acc) → (ws.map Prod.fst).Nodup →
      ws.foldl (fun ks kv => keyStep ks kv.1) acc = acc ++ ws.map Prod.fst
  | [], acc, _, _ => by simp
  | x :: t, acc, hdis, hnd => by
    rw [List.foldl_cons]
    have hx : x.1 ∉ acc := hdis x.1 (by simp)
    have hstep : keyStep acc x.1 = acc ++ [x.1] := by rw [keyStep, if_neg hx]
    rw [List.map_cons] at hnd
    have hnd2 := List.nodup_cons.mp hnd
    have hdis2 : ∀ q ∈ t.map Prod.fst, q ∉ acc ++ [x.1] := by
      intro q hq
      rw [List.mem_append]
      rintro (h1 | h1)
      · exact hdis q (List.mem_cons_of_mem _ hq) h1
      · rw [List.mem_singleton] at h1
        exact hnd2.1 (h1 ▸ hq)
    rw [hstep, foldl_keyStep_of_disjoint t (acc ++ [x.1]) hdis2 hnd2.2]
    simp

/-- With pairwise-distinct keys, the bookkept key list is exactly the list
of written keys, in write order. -/
lemma keysOf_of_nodup (ws : List (String × String)) (h : (ws.map Prod.fst).Nodup) :
    keysOf ws = ws.map Prod.fst := by
  rw [keysOf, foldl_keyStep_of_disjoint ws [] (fun q _ => List.not_mem_nil q) h]
  rfl

/-- In a good configuration with pairwise-distinct written keys, the
header-set snapshot has one entry per write. -/
lemma getAll_length_of_cfg (st : RpcState) (c : Ctx) (seen : List (String × String))
    (hA : c.attach = toAttach seen) (hK : tableFind st.headerKeysMap c.id = keysOf seen)
    (hnd : (seen.map Prod.fst).Nodup) :
    (GetRPCHeaders st (some c)).length = seen.length := by
  show ((tableFind st.headerKeysMap c.id).foldl (getAllStep c) []).length = _
  rw [hK, getAllStep_eq_chainGetStep c seen hA,
    foldl_chainGetStep_length (lastWrite seen) (keysOf seen) [] (keysOf_nodup seen)
      (fun key hk => (lastWrite_isSome seen key).mpr ((mem_keysOf seen key).mp hk))
      (fun key _ => rfl),
    keysOf_of_nodup seen hnd]
  simp

lemma getAll_sound_aux (c : Ctx) :
    ∀ (ks : List String) (m : List (String × String)),
      (∀ q v, headersLookup m q = some v → GetRPCHeader (some c) q = (v, true)) →
      ∀ q v, headersLookup (ks.foldl (getAllStep c) m) q = some v →
        GetRPCHeader (some c) q = (v, true)
  | [], _, hm, q, v, h => hm q v h
  | key :: rest, m, hm, q, v, h => by
    rw [List.foldl_cons] at h
    refine getAll_sound_aux c rest (getAllStep c m key) ?_ q v h
    intro q2 v2 h2
    rw [getAllStep] at h2
    rcases hg : GetRPCHeader (some c) key with ⟨v0, b⟩
    rw [hg] at h2
    cases b with
    | false => exact hm q2 v2 h2
    | true =>
      rw [headersLookup_mapSet] at h2
      by_cases hq : q2 = key
      · rw [if_pos hq] at h2
        injection h2 with h3
        rw [hq, hg, ← h3]
      · rw [if_neg hq] at h2
        exact hm q2 v2 h2

/-- Every entry reported by `GetRPCHeaders` is read off the handle's own
chain: the snapshot never contains a value that `GetRPCHeader` would not
return on that same handle, whatever the global state. -/
lemma getAll_sound (st : RpcState) (c : Ctx) (q v : String)
    (h : headersLookup (GetRPCHeaders st (some c)) q = some v) :
    GetRPCHeader (some c) q = (v, true) := by
  refine getAll_sound_aux c (tableFind st.headerKeysMap c.id) [] ?_ q v h
  intro q2 v2 h2
  simp [headersLookup] at h2

/-- With pairwise-distinct keys, the last write at a key is the unique
write at that key. -/
lemma lastWrite_eq_headersLookup_of_nodup (ws : List (String × String)) (q : String)
    (h : (ws.map Prod.fst).Nodup) :
    lastWrite ws q = headersLookup ws q := by
  induction ws with
  | nil => rfl
  | cons x t ih =>
    obtain ⟨a, b⟩ := x
    rw [List.map_cons, List.nodup_cons] at h
    by_cases hq : a = q
    · have hmem : q ∉ t.map Prod.fst := hq ▸ h.1
      have hnone : lastWrite t q = none := by
        cases hlw : lastWrite t q with
        | none => rfl
        | some v => exact absurd ((lastWrite_isSome t q).mp (by rw [hlw]; rfl)) hmem
      rw [lastWrite, hnone, headersLookup]
      simp [hq]
    · rw [lastWrite, headersLookup, if_neg hq, ← ih h.2]
      cases hlw : lastWrite t q with
      | some v => simp [hlw, hq]
      | none => simp [hlw, hq]

lemma tableFind_nodup (t : List (Nat × List String)) (i : Nat)
    (h : ∀ p ∈ t, p.2.Nodup) : (tableFind t i).Nodup := by
  induction t with
  | nil => exact List.nodup_nil
  | cons hd rest ih =>
    obtain ⟨j, ks⟩ := hd
    by_cases hj : j = i
    · rw [tableFind, if_pos hj]
      exact h (j, ks) (List.mem_cons_self _ _)
    · rw [tableFind, if_neg hj]
      exact ih (fun p hp => h p (List.mem_cons_of_mem _ hp))

/-- `SetRPCHeader` keeps every side-table key list duplicate-free. -/
lemma setRPCHeader_table_nodup (st : RpcState) (c : Ctx) (k v : String)
    (h : ∀ p ∈ st.headerKeysMap, p.2.Nodup) :
    ∀ p ∈ (SetRPCHeader st c k v).1.headerKeysMap, p.2.Nodup := by
  intro p hp
  have hp2 := mem_of_mem_tableErase _ _ p hp
  rcases mem_tableInsert _ _ _ p hp2 with h1 | h1
  · rw [h1]
    exact keyStep_nodup _ k (tableFind_nodup st.headerKeysMap c.id h)
  · exact h p h1

lemma setMany_table_nodup :
    ∀ (hs : List (String × String)) (st : RpcState) (c : Ctx),
      (∀ p ∈ st.headerKeysMap, p.2.Nodup) →
      ∀ p ∈ (SetRPCHeaders st c hs).1.headerKeysMap, p.2.Nodup
  | [], _, _, h => h
  | kv :: rest, st, c, h =>
    setMany_table_nodup rest (SetRPCHeader st c kv.1 kv.2).1
      (SetRPCHeader st c kv.1 kv.2).2 (setRPCHeader_table_nodup st c kv.1 kv.2 h)

/-- A registry write operation as invokable by arbitrary callers: a single
`SetRPCHeader` or a bulk `SetRPCHeaders`, on any handle whatsoever. -/
inductive RegOp where
  | setOne (ctx : Ctx) (key value : String)
  | setMany (ctx : Ctx) (headers : List (String × String))

/-- Apply one registry write operation to the global state. -/
def applyOp (st : RpcState) (op : RegOp) : RpcState :=
  match op with
  | RegOp.setOne c k v => (SetRPCHeader st c k v).1
  | RegOp.setMany c hs => (SetRPCHeaders st c hs).1

lemma applyOp_table_nodup (st : RpcState) (op : RegOp)
    (h : ∀ p ∈ st.headerKeysMap, p.2.Nodup) :
    ∀ p ∈ (applyOp st op).headerKeysMap, p.2.Nodup := by
  cases op with
  | setOne c k v => exact setRPCHeader_table_nodup st c k v h
  | setMany c hs => exact setMany_table_nodup hs st c h

lemma foldl_applyOp_table_nodup :
    ∀ (ops : List RegOp) (st : RpcState),
      (∀ p ∈ st.headerKeysMap, p.2.Nodup) →
      ∀ p ∈ (ops.foldl applyOp st).headerKeysMap, p.2.Nodup
  | [], _, h => h
  | op :: rest, st, h => by
    rw [List.foldl_cons]
    exact foldl_applyOp_table_nodup rest (applyOp st op) (applyOp_table_nodup st op h)

end Rpc

namespace Resty

/-- Default HTTP request timeout in seconds. -/
def DefaultTimeout : Int := 10

/-- Name of the Content-Type header field. -/
def ContentType : String := "Content-Type"

/-- Content-Type value for JSON payloads. -/
def ContentTypeJson : String := "application/json"

/-- Content-Type value for URL-encoded form payloads. -/
def ContentTypeForm : String := "application/x-www-form-urlencoded"

/-- The configuration of a resty client that the facade touches: the
timeout (in seconds, as passed to `SetTimeout`) and whether the TLS
configuration skips certificate verification. -/
structure RestyClient where
  timeoutSeconds : Int
  insecureSkipVerify : Bool
  deriving DecidableEq

/-- `resty.New()`: a fresh client with no timeout set and ordinary TLS
verification. -/
def restyNew : RestyClient :=
  { timeoutSeconds := 0, insecureSkipVerify := false }

/-- `client.SetTimeout(time.Duration(timeout) * time.Second)`. -/
def RestyClient.SetTimeout (c : RestyClient) (seconds : Int) : RestyClient :=
  { c with timeoutSeconds := seconds }

/-- `client.SetTLSClientConfig(&tls.Config{InsecureSkipVerify: true})`. -/
def RestyClient.SetTLSClientConfig (c : RestyClient) (skipVerify : Bool) : RestyClient :=
  { c with insecureSkipVerify := skipVerify }

/-- The request object under construction: the owning client's
configuration plus everything the facade attaches before executing it. -/
structure RestyRequest where
  client : RestyClient
  headers : List (String × String)
  traceEnabled : Bool
  hasBody : Bool
  formData : List (String × String)
  fileParts : List (String × String)
  deriving DecidableEq

/-- `client.R()`: a fresh request on the client. -/
def RestyClient.R (c : RestyClient) : RestyRequest :=
  { client := c, headers := [], traceEnabled := false, hasBody := false,
    formData := [], fileParts := [] }

/-- `req.EnableTrace()`. -/
def RestyRequest.EnableTrace (r : RestyRequest) : RestyRequest :=
  { r with traceEnabled := true }

/-- `req.SetHeaders(header)`: sets each entry of the header map. -/
def RestyRequest.SetHeaders (r : RestyRequest) (header : List (String × String)) :
    RestyRequest :=
  { r with headers := header.foldl (fun m kv => mapSet m kv.1 kv.2) r.headers }

/-- `req.SetHeader(key, value)`. -/
def RestyRequest.SetHeader (r : RestyRequest) (key value : String) : RestyRequest :=
  { r with headers := mapSet r.headers key value }

/-- `req.SetBody(body)`: the body itself is opaque to the facade. -/
def RestyRequest.SetBody (r : RestyRequest) : RestyRequest :=
  { r with hasBody := true }

/-- `req.SetFormData(FormData)`. -/
def RestyRequest.SetFormData (r : RestyRequest) (fd : List (String × String)) :
    RestyRequest :=
  { r with formData := fd.foldl (fun m kv => mapSet m kv.1 kv.2) r.formData }

/-- `req.SetFileReader(param, fileName, reader)`: records the file part;
the reader's contents are opaque to the facade. -/
def RestyRequest.SetFileReader (r : RestyRequest) (param fileName : String) : RestyRequest :=
  { r with fileParts := r.fileParts ++ [(param, fileName)] }

/-- `GetRequest(timeout)`: fresh client, timeout set, fresh request. -/
def GetRequest (timeout : Int) : RestyRequest :=
  (restyNew.SetTimeout timeout).R

/-- `GetHttpsRequest(timeout)`: fresh client with TLS verification skipped
and the timeout set, fresh request with tracing enabled. -/
def GetHttpsRequest (timeout : Int) : RestyRequest :=
  ((restyNew.SetTLSClientConfig true).SetTimeout timeout).R.EnableTrace

/-- The request executed by `Get(url)`. -/
def getReq : RestyRequest :=
  GetRequest DefaultTimeout

/-- The request executed by `GetWithHeaders(url, header)`. -/
def getWithHeadersReq (header : List (String × String)) : RestyRequest :=
  (GetRequest DefaultTimeout).SetHeaders header

/-- The request executed by `HttpsGet(url)`. -/
def httpsGetReq : RestyRequest :=
  GetHttpsRequest DefaultTimeout

/-- The request executed by `HttpsGetWithHeaders(url, header)`. -/
def httpsGetWithHeadersReq (header : List (String × String)) : RestyRequest :=
  (GetHttpsRequest DefaultTimeout).SetHeaders header

/-- The request executed by `Post(url, body, header)`. -/
def postReq (header : List (String × String)) : RestyRequest :=
  ((GetRequest DefaultTimeout).SetHeaders header).SetBody

/-- The request executed by `HttpsPost(url, body, header)`. -/
def httpsPostReq (header : List (String × String)) : RestyRequest :=
  ((GetHttpsRequest DefaultTimeout).SetHeaders header).SetBody

/-- The request executed by `Json(url, body, header)`. -/
def jsonReq (header : List (String × String)) : RestyRequest :=
  (((GetRequest DefaultTimeout).SetHeaders header).SetHeader ContentType ContentTypeJson).SetBody

/-- The request executed by `Form(url, FormData, header)`. -/
def formReq (formData header : List (String × String)) : RestyRequest :=
  (((GetRequest DefaultTimeout).SetHeaders header).SetHeader ContentType
    ContentTypeForm).SetFormData formData

/-- The request executed by `File(url, FormData, header, param, fileName, reader)`. -/
def fileReq (formData header : List (String × String)) (param fileName : String) :
    RestyRequest :=
  ((((GetRequest DefaultTimeout).SetHeaders header).SetHeader ContentType
    ContentTypeForm).SetFormData formData).SetFileReader param fileName

end Resty

end GlobalToolkit

open GlobalToolkit GlobalToolkit.Rpc GlobalToolkit.Resty

/-- C1, counterexample: the claim that `GetRPCHeaders` reflects exactly the
chain's writes even when two downstream handles are derived from the same
parent is false.  Derive `d2` and then a sibling `d3` from the same parent
handle `d1`: the write of `k1` performed on the chain that produced `d3`'s
handle is visible to `GetRPCHeader` on it, yet absent from `GetRPCHeaders`,
because the parent's side-table entry was deleted by the first derivation. -/
theorem rpc_getAll_sibling_derivation_counterexample :
    (let d1 := SetRPCHeader initState rootCtx "k1" "v1"
     let d2 := SetRPCHeader d1.1 d1.2 "ka" "va"
     let d3 := SetRPCHeader d2.1 d1.2 "kb" "vb"
     GetRPCHeader (some d3.2) "k1" = ("v1", true) ∧
       headersLookup (GetRPCHeaders d3.1 (some d3.2)) "k1" = none) := by
  decide

/-- C1 (amended): for every handle produced from a fresh root by a linear
chain of `set` operations — no handle used as the parent of more than one
derivation — `GetRPCHeaders` maps each key to the last value written for it
along the chain and contains no other entry; and on any handle in any
state, every entry `GetRPCHeaders` reports is a write visible on that
handle's own chain, so no write on a non-ancestor handle is ever
reflected. -/
theorem rpc_getAll_linear_chain_exact :
    (∀ (ws : List (String × String)) (k : String),
        headersLookup (GetRPCHeaders (chainRun ws).1 (some (chainRun ws).2)) k
          = lastWrite ws k) ∧
    (∀ (st : RpcState) (c : Ctx) (k v : String),
        headersLookup (GetRPCHeaders st (some c)) k = some v →
        GetRPCHeader (some c) k = (v, true)) := by
  constructor
  · intro ws k
    have h := goodCfg_chainRun ws
    exact getAll_lookup_of_cfg _ _ ws h.attach_eq h.table_eq k
  · intro st c k v h
    exact getAll_sound st c k v h

/-- C1, witness for the hypothesis of the amended theorem's second part, at
a one-write chain. -/
theorem rpc_getAll_linear_chain_exact_witness :
    headersLookup (GetRPCHeaders (chainRun [("a", "x")]).1
      (some (chainRun [("a", "x")]).2)) "a" = some "x" ∧
    GetRPCHeader (some (chainRun [("a", "x")]).2) "a" = ("x", true) :=
  ⟨by decide, rpc_getAll_linear_chain_exact.2 (chainRun [("a", "x")]).1
    (chainRun [("a", "x")]).2 "a" "x" (by decide)⟩

/-- C2: `get(set(H, k, v), k) = (v, true)`, and the original handle is not
mutated: the new handle merely prepends one attachment to `H`'s chain,
which is shared intact, and `GetRPCHeader` reads only the handle's chain,
so `get(H, k)` gives the same result before and after the call. -/
theorem rpc_get_after_set_same_key (st : RpcState) (H : Ctx) (k v : String) :
    GetRPCHeader (some (SetRPCHeader st H k v).2) k = (v, true) ∧
    (SetRPCHeader st H k v).2.attach = (k, GoVal.str v) :: H.attach := by
  constructor
  · show GetRPCHeader (some ⟨st.nextId, (k, GoVal.str v) :: H.attach⟩) k = (v, true)
    simp [GetRPCHeader, ctxValue, attachLookup]
  · rfl

/-- C3: overwrite at the same key along a chain — the last write wins:
`get(set(set(H, k, v1), k, v2), k) = (v2, true)`. -/
theorem rpc_set_overwrite_last_write_wins (st : RpcState) (H : Ctx) (k v1 v2 : String) :
    GetRPCHeader (some (SetRPCHeader (SetRPCHeader st H k v1).1
      (SetRPCHeader st H k v1).2 k v2).2) k = (v2, true) := by
  simp [SetRPCHeader, GetRPCHeader, ctxValue, attachLookup]

/-- C4: after `n` sequential `set` operations with pairwise-distinct keys
starting from a fresh empty handle (`chainRun` is definitionally
`SetRPCHeaders initState rootCtx`, so this covers both `SetRPCHeader`
chains and a bulk `SetRPCHeaders` call), `GetRPCHeaders` on the final
handle binds exactly the written keys to their written values, and has
exactly `n` entries. -/
theorem rpc_getAll_distinct_keys_exact (ws : List (String × String)) (k : String)
    (hnd : (ws.map Prod.fst).Nodup) :
    headersLookup (GetRPCHeaders (chainRun ws).1 (some (chainRun ws).2)) k
      = headersLookup ws k ∧
    (GetRPCHeaders (chainRun ws).1 (some (chainRun ws).2)).length = ws.length := by
  have h := goodCfg_chainRun ws
  constructor
  · rw [getAll_lookup_of_cfg _ _ ws h.attach_eq h.table_eq k]
    exact lastWrite_eq_headersLookup_of_nodup ws k hnd
  · exact getAll_length_of_cfg _ _ ws h.attach_eq h.table_eq hnd

/-- C4, witness: the spec's concrete three-write scenario. -/
theorem rpc_getAll_distinct_keys_exact_witness :
    (([("key1", "value1"), ("key2", "value2"), ("key3", "value3")].map Prod.fst)).Nodup ∧
    (headersLookup (GetRPCHeaders
        (chainRun [("key1", "value1"), ("key2", "value2"), ("key3", "value3")]).1
        (some (chainRun [("key1", "value1"), ("key2", "value2"), ("key3", "value3")]).2)) "key2"
      = headersLookup [("key1", "value1"), ("key2", "value2"), ("key3", "value3")] "key2" ∧
    (GetRPCHeaders
        (chainRun [("key1", "value1"), ("key2", "value2"), ("key3", "value3")]).1
        (some (chainRun [("key1", "value1"), ("key2", "value2"), ("key3", "value3")]).2)).length
      = [("key1", "value1"), ("key2", "value2"), ("key3", "value3")].length) :=
  ⟨by decide, rpc_getAll_distinct_keys_exact
    [("key1", "value1"), ("key2", "value2"), ("key3", "value3")] "key2" (by decide)⟩

/-- C5: on any well-formed registry state (side-table identities pairwise
distinct and older than the fresh-id counter, as Go map keying by freshly
allocated context identities guarantees), `SetRPCHeader` stores for the new
handle the key list inherited from `H`'s side-table entry, extended with
`k` only if `k` was not already in it, and removes `H`'s own entry. -/
theorem rpc_set_side_table_update (st : RpcState) (H : Ctx) (k v : String)
    (hN : (st.headerKeysMap.map Prod.fst).Nodup)
    (hB : ∀ p ∈ st.headerKeysMap, p.1 < st.nextId)
    (hH : H.id < st.nextId) :
    tableFind (SetRPCHeader st H k v).1.headerKeysMap (SetRPCHeader st H k v).2.id
      = (if k ∈ tableFind st.headerKeysMap H.id then tableFind st.headerKeysMap H.id
         else tableFind st.headerKeysMap H.id ++ [k]) ∧
    ∀ p ∈ (SetRPCHeader st H k v).1.headerKeysMap, p.1 ≠ H.id := by
  constructor
  · show tableFind (tableErase (tableInsert st.headerKeysMap st.nextId
      (keyStep (tableFind st.headerKeysMap H.id) k)) H.id) st.nextId = _
    rw [tableFind_tableErase_ne _ _ _ (Ne.symm (Nat.ne_of_lt hH)),
      tableFind_tableInsert_self]
    rfl
  · have hfresh : ∀ q ∈ st.headerKeysMap, q.1 ≠ st.nextId :=
      fun q hq => Nat.ne_of_lt (hB q hq)
    have hins := tableInsert_eq_append st.headerKeysMap st.nextId
      (keyStep (tableFind st.headerKeysMap H.id) k) hfresh
    have hnotmem : st.nextId ∉ st.headerKeysMap.map Prod.fst := by
      intro hmem
      rcases List.mem_map.mp hmem with ⟨q, hq, hq2⟩
      exact hfresh q hq hq2
    have hnd2 : ((tableInsert st.headerKeysMap st.nextId
        (keyStep (tableFind st.headerKeysMap H.id) k)).map Prod.fst).Nodup := by
      rw [hins, List.map_append]
      simp [List.nodup_append, hN, hnotmem]
    intro p hp
    exact tableErase_not_mem _ H.id hnd2 p hp

/-- C5, witness: a fresh state and the root handle. -/
theorem rpc_set_side_table_update_witness :
    (tableFind (SetRPCHeader initState rootCtx "a" "x").1.headerKeysMap
        (SetRPCHeader initState rootCtx "a" "x").2.id
      = (if "a" ∈ tableFind initState.headerKeysMap rootCtx.id
         then tableFind initState.headerKeysMap rootCtx.id
         else tableFind initState.headerKeysMap rootCtx.id ++ ["a"])) ∧
    ∀ p ∈ (SetRPCHeader initState rootCtx "a" "x").1.headerKeysMap, p.1 ≠ rootCtx.id :=
  rpc_set_side_table_update initState rootCtx "a" "x" (by decide) (by decide) (by decide)

/-- C6: `SetRPCHeaders` with an empty mapping returns the input handle
unchanged, so every subsequent `GetRPCHeader` agrees with the original. -/
theorem rpc_setAll_empty_identity (st : RpcState) (H : Ctx) (k : String) :
    GetRPCHeader (some (SetRPCHeaders st H []).2) k = GetRPCHeader (some H) k := rfl

/-- C7: on a nil handle no registry read fails loudly — `GetRPCHeader`
returns `("", false)` for every key and `GetRPCHeaders` returns the empty
mapping; absence is signalled only by the boolean and the empty map. -/
theorem rpc_nil_handle_no_error (st : RpcState) (k : String) :
    GetRPCHeader none k = ("", false) ∧ GetRPCHeaders st none = [] :=
  ⟨rfl, rfl⟩

/-- C8: every facade function without a timeout parameter builds its
request with the default timeout of 10 seconds, and the Https variants
additionally mark the request's client to skip TLS peer verification. -/
theorem resty_default_timeout_and_tls_skip (header formData : List (String × String))
    (param fileName : String) :
    DefaultTimeout = 10 ∧
    getReq.client.timeoutSeconds = DefaultTimeout ∧
    (getWithHeadersReq header).client.timeoutSeconds = DefaultTimeout ∧
    httpsGetReq.client.timeoutSeconds = DefaultTimeout ∧
    (httpsGetWithHeadersReq header).client.timeoutSeconds = DefaultTimeout ∧
    (postReq header).client.timeoutSeconds = DefaultTimeout ∧
    (httpsPostReq header).client.timeoutSeconds = DefaultTimeout ∧
    (jsonReq header).client.timeoutSeconds = DefaultTimeout ∧
    (formReq formData header).client.timeoutSeconds = DefaultTimeout ∧
    (fileReq formData header param fileName).client.timeoutSeconds = DefaultTimeout ∧
    httpsGetReq.client.insecureSkipVerify = true ∧
    (httpsGetWithHeadersReq header).client.insecureSkipVerify = true ∧
    (httpsPostReq header).client.insecureSkipVerify = true :=
  ⟨rfl, rfl, rfl, rfl, rfl, rfl, rfl, rfl, rfl, rfl, rfl, rfl, rfl⟩

/-- C9: setting one key leaves every other key's lookup on the new handle
unchanged: for `k2 ≠ k`, `get(set(H, k, v), k2) = get(H, k2)`. -/
theorem rpc_set_frame_other_keys (st : RpcState) (H : Ctx) (k k2 v : String)
    (hne : k2 ≠ k) :
    GetRPCHeader (some (SetRPCHeader st H k v).2) k2 = GetRPCHeader (some H) k2 := by
  have hk : ¬ k = k2 := fun hh => hne hh.symm
  show GetRPCHeader (some ⟨st.nextId, (k, GoVal.str v) :: H.attach⟩) k2 = _
  simp [GetRPCHeader, ctxValue, attachLookup, hk]

/-- C9, witness at distinct concrete keys. -/
theorem rpc_set_frame_other_keys_witness :
    ("b" : String) ≠ "a" ∧
    GetRPCHeader (some (SetRPCHeader initState rootCtx "a" "x").2) "b"
      = GetRPCHeader (some rootCtx) "b" :=
  ⟨by decide, rpc_set_frame_other_keys initState rootCtx "a" "b" "x" (by decide)⟩

/-- C10: after any sequence of `SetRPCHeader`/`SetRPCHeaders` operations on
arbitrary handles starting from an empty side-table, every key list stored
in the side-table is duplicate-free. -/
theorem rpc_side_table_keys_nodup (ops : List RegOp) (i : Nat) (ks : List String)
    (h : (i, ks) ∈ (ops.foldl applyOp initState).headerKeysMap) :
    ks.Nodup :=
  foldl_applyOp_table_nodup ops initState
    (fun p hp => absurd hp (List.not_mem_nil p)) (i, ks) h

/-- C10, witness: a single set operation from the fresh state. -/
theorem rpc_side_table_keys_nodup_witness :
    (1, ["a"]) ∈ ([RegOp.setOne rootCtx "a" "x"].foldl applyOp initState).headerKeysMap ∧
    (["a"] : List String).Nodup :=
  ⟨by decide, rpc_side_table_keys_nodup [RegOp.setOne rootCtx "a" "x"] 1 ["a"] (by decide)⟩
